import Mathlib

set_option linter.unusedVariables false

/-!
Verification development for the conversation concurrency coordinator
(`ConversationLockManager`) and the platform adapters (Slack, Telegram)
of the remote agentic coding system.

The adapter functions (`isUserAllowed`, `isUserAuthorized`, `splitMessage`,
the startup capacity parsing) are shallow embeddings of the TypeScript
sources in `src/adapters/slack.ts`, `src/adapters/telegram.ts` and
`src/index.ts`.

The scheduling core itself lives in `src/utils/conversation-lock.ts`,
which is not part of the available sources (only its call sites in
`src/index.ts` are).  It is therefore modelled from the specification
(sections 3, 4 and 7 of the design document): a global bounded gate, a
per-conversation FIFO queue map with an active flag, a greedy promotion
loop with the oldest-`enqueuedAt`-first tie-break, and unconditional slot
release on completion.  The model is a deterministic transition system:
states are `LMState`, the environment chooses a sequence of `Event`s
(submissions and completions of running tasks), and every claim about
"reachable states" is stated over `run cap es` for arbitrary event lists.
-/

namespace RACS

/-- A submitted unit of work.  `enqueuedAt` is the logical submission
timestamp (the scheduler clock at submission time); the clock strictly
increases, so it also identifies the task uniquely. -/
structure Task where
  conv : String
  enqueuedAt : Nat
deriving DecidableEq, Repr

/-- Outcome of a unit of work: success, or rejection carrying the error
value verbatim. -/
inductive Outcome where
  | success : Outcome
  | failure : String → Outcome
deriving DecidableEq, Repr

/-- Modelled from the spec: `ConversationState` — the FIFO queue of pending
tasks of one conversation plus its active/idle flag. -/
structure ConvState where
  queue : List Task
  active : Bool
deriving DecidableEq, Repr

/-- Modelled from the spec: `ConcurrencyGate` / `GlobalGate` — a bounded
counter of tasks executing across all conversations. -/
structure Gate where
  capacity : Nat
  inUse : Nat
deriving DecidableEq, Repr

/-- Modelled from the spec: `tryAdmit() → bool` grants a slot and
increments `inUse` iff `inUse < capacity`; otherwise fails without
changing the gate. -/
def Gate.tryAdmit (g : Gate) : Bool × Gate :=
  if g.inUse < g.capacity then (true, ⟨g.capacity, g.inUse + 1⟩) else (false, g)

/-- Modelled from the spec: `release()` decrements `inUse`, never below
zero (truncated subtraction). -/
def Gate.release (g : Gate) : Gate :=
  ⟨g.capacity, g.inUse - 1⟩

/-- Modelled from the spec: the whole scheduler state of the
`ConversationLockManager`.  `convs` is the lazily created map from
conversation identifier to its state; `running` are the tasks currently
executing; `started` and `finished` record the order in which tasks began
executing and completed (with the completion outcome); `clock` is the
logical time used for `enqueuedAt`. -/
structure LMState where
  gate : Gate
  convs : List (String × ConvState)
  running : List Task
  started : List Task
  finished : List (Task × Outcome)
  clock : Nat
deriving DecidableEq, Repr

/-- Look up a conversation's state; a conversation never seen before is
idle with an empty queue. -/
def getConv : List (String × ConvState) → String → ConvState
  | [], _ => ⟨[], false⟩
  | (k, c) :: rest, id => if k = id then c else getConv rest id

/-- Replace (first occurrence) or append a conversation's state. -/
def setConv : List (String × ConvState) → String → ConvState → List (String × ConvState)
  | [], id, c => [(id, c)]
  | (k, v) :: rest, id, c => if k = id then (id, c) :: rest else (k, v) :: setConv rest id c

/-- Head tasks of all eligible conversations: idle with a non-empty
queue. -/
def eligibleHeads : List (String × ConvState) → List Task
  | [] => []
  | (_, c) :: rest =>
    match c.active, c.queue with
    | false, t :: _ => t :: eligibleHeads rest
    | _, _ => eligibleHeads rest

/-- The task with the smallest `enqueuedAt` (oldest-first tie-break of the
fairness rule). -/
def minByEnq : List Task → Option Task
  | [] => none
  | t :: ts =>
    match minByEnq ts with
    | none => some t
    | some b => if b.enqueuedAt < t.enqueuedAt then some b else some t

/-- Total number of queued (not yet executing) tasks. -/
def sumQ (convs : List (String × ConvState)) : Nat :=
  (convs.map (fun p => p.2.queue.length)).sum

/-- Total number of queued tasks of a scheduler state. -/
def totalQueued (s : LMState) : Nat :=
  sumQ s.convs

/-- Modelled from the spec: one promotion step — pick the eligible
conversation whose head has the earliest `enqueuedAt`; if the gate admits,
pop that head, mark the conversation active and start executing the task.
Returns `none` when no promotion is possible. -/
def promoteOnce (s : LMState) : Option LMState :=
  match minByEnq (eligibleHeads s.convs) with
  | none => none
  | some t =>
    match s.gate.tryAdmit with
    | (false, _) => none
    | (true, g) =>
      let c := getConv s.convs t.conv
      some { s with
        gate := g,
        convs := setConv s.convs t.conv ⟨c.queue.tail, true⟩,
        running := s.running ++ [t],
        started := s.started ++ [t] }

/-- Iterate promotion with explicit fuel. -/
def promoteRec : Nat → LMState → LMState
  | 0, s => s
  | n + 1, s =>
    match promoteOnce s with
    | none => s
    | some s' => promoteRec n s'

/-- Modelled from the spec: the promotion loop — promote while some
conversation is eligible and the gate admits.  `totalQueued s` steps
always suffice, since each promotion dequeues one task. -/
def promote (s : LMState) : LMState :=
  promoteRec (totalQueued s) s

/-- Append a fresh task for conversation `id` to its queue and advance the
clock (step 1 of `acquireLock`). -/
def enqueueTask (s : LMState) (id : String) : LMState :=
  let c := getConv s.convs id
  { s with
    convs := setConv s.convs id ⟨c.queue ++ [⟨id, s.clock⟩], c.active⟩,
    clock := s.clock + 1 }

/-- Modelled from the spec: `acquireLock(conversationId, work)` — enqueue
the work under its conversation, then run the promotion loop. -/
def submit (s : LMState) (id : String) : LMState :=
  promote (enqueueTask s id)

/-- Modelled from the spec: completion (success or failure) of the `i`-th
currently executing task — release its global slot, clear its
conversation's active flag, record the outcome verbatim, then re-run the
promotion loop.  An out-of-range index is a no-op. -/
def finishAt (s : LMState) (i : Nat) (r : Outcome) : LMState :=
  match s.running.get? i with
  | none => s
  | some t =>
    let c := getConv s.convs t.conv
    promote { s with
      gate := s.gate.release,
      convs := setConv s.convs t.conv ⟨c.queue, false⟩,
      running := s.running.eraseIdx i,
      finished := s.finished ++ [(t, r)] }

/-- Environment events: a caller submits work under a conversation, or a
currently executing task completes with an outcome. -/
inductive Event where
  | submit : String → Event
  | finish : Nat → Outcome → Event
deriving DecidableEq, Repr

/-- One transition of the scheduler. -/
def step (s : LMState) : Event → LMState
  | Event.submit id => submit s id
  | Event.finish i r => finishAt s i r

/-- The scheduler state right after construction with the given
capacity. -/
def initState (cap : Nat) : LMState :=
  ⟨⟨cap, 0⟩, [], [], [], [], 0⟩

/-- The state reached from a fresh manager of capacity `cap` by an
arbitrary event sequence; the reachable states are exactly the values of
`run`. -/
def run (cap : Nat) (es : List Event) : LMState :=
  es.foldl step (initState cap)

/-- Snapshot returned by `getStats`. -/
structure Stats where
  maxConcurrent : Nat
  currentActive : Nat
  queuedTotal : Nat
  perConversationQueueDepths : List (String × Nat)
deriving DecidableEq, Repr

/-- Modelled from the spec: `getStats()` — a read-only snapshot; the
returned state component is the unchanged input state. -/
def getStats (s : LMState) : Stats × LMState :=
  (⟨s.gate.capacity, s.gate.inUse, totalQueued s,
    s.convs.map (fun p => (p.1, p.2.queue.length))⟩, s)

/-- The currently executing tasks of one conversation. -/
def runningOf (s : LMState) (id : String) : List Task :=
  s.running.filter (fun t => t.conv == id)

/-- Number of currently executing tasks of one conversation inside a task
list. -/
def countConv (l : List Task) (id : String) : Nat :=
  (l.filter (fun t => t.conv == id)).length

/-- The tasks of one conversation in the order they began executing. -/
def startedOf (s : LMState) (id : String) : List Task :=
  s.started.filter (fun t => t.conv == id)

/-- The tasks of one conversation in the order they completed. -/
def finishedOf (s : LMState) (id : String) : List Task :=
  (s.finished.map Prod.fst).filter (fun t => t.conv == id)

/-- The whole per-conversation task trace: completed, then executing, then
queued.  In every reachable state this list is strictly increasing in
`enqueuedAt`, i.e. the conversation is processed in submission order. -/
def convTrace (s : LMState) (id : String) : List Task :=
  finishedOf s id ++ runningOf s id ++ (getConv s.convs id).queue

/-- From `src/adapters/slack.ts` (`isUserAllowed`): empty whitelist denies
everyone; otherwise a member equal to the wildcard or to the user id
allows. -/
def isUserAllowed (allowedUsers : List String) (userId : String) : Bool :=
  if allowedUsers.length = 0 then false
  else allowedUsers.any (fun user => user == "*" || user == userId)

/-- From `src/index.ts` (`isUserAuthorized`): empty whitelist allows
everyone; otherwise membership of the decimal string of the user id is
required. -/
def isUserAuthorized (allowedUserIds : List String) (userId : Int) : Bool :=
  if allowedUserIds.length = 0 then true
  else allowedUserIds.contains (toString userId)

/-- One step of the chunk-accumulating loop of `splitMessage` (identical
in `src/adapters/telegram.ts` and `src/adapters/slack.ts`). -/
def splitStep (maxLength : Nat) (acc : List String × String) (line : String) :
    List String × String :=
  let chunks := acc.1
  let chunk := acc.2
  if chunk.length + line.length + 1 > maxLength - 100 then
    (if chunk = "" then chunks else chunks ++ [chunk], line)
  else
    (chunks, if chunk = "" then line else chunk ++ "\n" ++ line)

/-- From `src/adapters/telegram.ts` / `src/adapters/slack.ts`
(`splitMessage`): a message within the limit is returned unchanged as a
single chunk; a longer one is split along line boundaries. -/
def splitMessage (maxLength : Nat) (message : String) : List String :=
  if message.length ≤ maxLength then [message]
  else
    let r := (message.splitOn "\n").foldl (splitStep maxLength) ([], "")
    if r.2 = "" then r.1 else r.1 ++ [r.2]

/-- Telegram instance (`MAX_LENGTH = 4096`). -/
def telegramSplitMessage (message : String) : List String :=
  splitMessage 4096 message

/-- Slack instance (`MAX_LENGTH = 40000`). -/
def slackSplitMessage (message : String) : List String :=
  splitMessage 40000 message

/-- Digits-to-number helper of the `parseInt` model. -/
def natOfDigits (cs : List Char) : Nat :=
  cs.foldl (fun acc c => acc * 10 + (c.toNat - 48)) 0

/-- Model of JavaScript `parseInt(s)` (radix 10) on the values relevant
here: skip leading whitespace, optional sign, then the longest digit
prefix; `none` models `NaN` (no digits). -/
def jsParseInt (s : String) : Option Int :=
  let cs := s.data.dropWhile (fun c => c == ' ' || c == '\t' || c == '\n' || c == '\r')
  let signed : Int × List Char :=
    match cs with
    | '-' :: r => (-1, r)
    | '+' :: r => (1, r)
    | r => (1, r)
  let digs := signed.2.takeWhile Char.isDigit
  if digs.isEmpty then none else some (signed.1 * natOfDigits digs)

/-- From `src/index.ts` line 71:
`process.env.MAX_CONCURRENT_CONVERSATIONS || '10'` — an unset or empty
variable falls back to the string `"10"`. -/
def envMaxConcurrentString (env : Option String) : String :=
  match env with
  | none => "10"
  | some v => if v = "" then "10" else v

/-- Modelled from the spec: the fatal configuration error of section 7 —
a non-positive configured capacity. -/
inductive ConfigurationError where
  | nonPositiveCapacity : ConfigurationError
deriving DecidableEq, Repr

/-- Modelled from the spec: the `ConversationLockManager` constructor
(`src/utils/conversation-lock.ts`, not among the available sources) —
construction with a non-positive capacity fails with a
`ConfigurationError`; a positive capacity yields the fresh scheduler
state. -/
def mkConversationLockManager (capacity : Int) : Except ConfigurationError LMState :=
  if capacity ≤ 0 then Except.error ConfigurationError.nonPositiveCapacity
  else Except.ok (initState capacity.toNat)

/-- The startup sequence of `src/index.ts` lines 70-72: parse the
configured capacity (default `"10"`), construct the manager once.  The
outer `none` models the unspecified `NaN` case (non-numeric variable),
which is outside every claim. -/
def startupLockManager (env : Option String) : Option (Except ConfigurationError LMState) :=
  (jsParseInt (envMaxConcurrentString env)).map mkConversationLockManager

theorem getConv_setConv_self (convs : List (String × ConvState)) (id : String)
    (c : ConvState) : getConv (setConv convs id c) id = c := by
  induction convs with
  | nil => simp [setConv, getConv]
  | cons q rest ih =>
    obtain ⟨k, v⟩ := q
    by_cases hk : k = id
    · simp [setConv, hk, getConv]
    · simp [setConv, hk, getConv, ih]

theorem getConv_setConv_ne (convs : List (String × ConvState)) {id id' : String}
    (c : ConvState) (h : id' ≠ id) :
    getConv (setConv convs id c) id' = getConv convs id' := by
  induction convs with
  | nil => simp [setConv, getConv, Ne.symm h]
  | cons q rest ih =>
    obtain ⟨k, v⟩ := q
    by_cases hk : k = id
    · subst hk; simp [setConv, getConv, Ne.symm h]
    · simp [setConv, hk, getConv, ih]

theorem mem_setConv {convs : List (String × ConvState)} {id : String} {c : ConvState}
    {p : String × ConvState} (h : p ∈ setConv convs id c) :
    p = (id, c) ∨ p ∈ convs := by
  induction convs with
  | nil => simpa [setConv] using h
  | cons q rest ih =>
    obtain ⟨k, v⟩ := q
    by_cases hk : k = id
    · simp [setConv, hk] at h
      rcases h with h | h
      · exact Or.inl (by simp [h])
      · exact Or.inr (List.mem_cons_of_mem _ h)
    · simp [setConv, hk] at h
      rcases h with h | h
      · exact Or.inr (by simp [h])
      · rcases ih h with h' | h'
        · exact Or.inl h'
        · exact Or.inr (List.mem_cons_of_mem _ h')

theorem keys_setConv (convs : List (String × ConvState)) (id : String) (c : ConvState) :
    (setConv convs id c).map Prod.fst =
      if id ∈ convs.map Prod.fst then convs.map Prod.fst
      else convs.map Prod.fst ++ [id] := by
  induction convs with
  | nil => simp [setConv]
  | cons q rest ih =>
    obtain ⟨k, v⟩ := q
    by_cases hk : k = id
    · simp [setConv, hk]
    · by_cases hm : id ∈ rest.map Prod.fst
      · simp [setConv, hk, ih, hm, Ne.symm hk]
      · simp [setConv, hk, ih, hm, Ne.symm hk]

theorem nodupKeys_setConv {convs : List (String × ConvState)}
    (h : (convs.map Prod.fst).Nodup) (id : String) (c : ConvState) :
    ((setConv convs id c).map Prod.fst).Nodup := by
  rw [keys_setConv]
  by_cases hm : id ∈ convs.map Prod.fst
  · simpa [hm] using h
  · simp [hm, List.nodup_append, h]

theorem getConv_of_mem {convs : List (String × ConvState)} {k : String} {c : ConvState}
    (hnd : (convs.map Prod.fst).Nodup) (h : (k, c) ∈ convs) : getConv convs k = c := by
  induction convs with
  | nil => simp at h
  | cons q rest ih =>
    obtain ⟨k', v⟩ := q
    simp only [List.map_cons, List.nodup_cons] at hnd
    rcases List.mem_cons.mp h with h1 | h1
    · have h2 : k = k' ∧ c = v := by simpa using h1
      obtain ⟨rfl, rfl⟩ := h2
      simp [getConv]
    · have hne : k' ≠ k := by
        intro he
        subst he
        exact hnd.1 (List.mem_map_of_mem Prod.fst h1)
      simp [getConv, hne]
      exact ih hnd.2 h1

theorem getConv_cases (convs : List (String × ConvState)) (id : String) :
    (id, getConv convs id) ∈ convs ∨ getConv convs id = ⟨[], false⟩ := by
  induction convs with
  | nil => simp [getConv]
  | cons q rest ih =>
    obtain ⟨k, v⟩ := q
    by_cases hk : k = id
    · subst hk
      simp [getConv]
    · simp only [getConv, hk, if_false]
      rcases ih with h | h
      · exact Or.inl (List.mem_cons_of_mem _ h)
      · exact Or.inr h

theorem minByEnq_eq_none {l : List Task} : minByEnq l = none ↔ l = [] := by
  cases l with
  | nil => simp [minByEnq]
  | cons a l =>
    simp only [minByEnq]
    cases minByEnq l with
    | none => simp
    | some b =>
      by_cases h : b.enqueuedAt < a.enqueuedAt <;> simp [h]

theorem minByEnq_mem : ∀ {l : List Task} {t : Task}, minByEnq l = some t → t ∈ l := by
  intro l
  induction l with
  | nil => intro t h; simp [minByEnq] at h
  | cons a l ih =>
    intro t h
    simp only [minByEnq] at h
    cases hm : minByEnq l with
    | none =>
      rw [hm] at h
      simp at h
      simp [h]
    | some b =>
      rw [hm] at h
      by_cases hlt : b.enqueuedAt < a.enqueuedAt
      · simp [hlt] at h
        subst h
        exact List.mem_cons_of_mem _ (ih hm)
      · simp [hlt] at h
        subst h
        exact List.mem_cons_self _ _

theorem minByEnq_le : ∀ {l : List Task} {t : Task}, minByEnq l = some t →
    ∀ u ∈ l, t.enqueuedAt ≤ u.enqueuedAt := by
  intro l
  induction l with
  | nil => intro t h; simp [minByEnq] at h
  | cons a l ih =>
    intro t h u hu
    simp only [minByEnq] at h
    cases hm : minByEnq l with
    | none =>
      rw [hm] at h
      simp at h
      subst h
      rcases List.mem_cons.mp hu with h1 | h1
      · exact h1 ▸ le_rfl
      · exact absurd (minByEnq_eq_none.mp hm ▸ h1) (List.not_mem_nil u)
    | some b =>
      rw [hm] at h
      by_cases hlt : b.enqueuedAt < a.enqueuedAt
      · simp [hlt] at h
        subst h
        rcases List.mem_cons.mp hu with h1 | h1
        · exact h1 ▸ le_of_lt hlt
        · exact ih hm u h1
      · simp [hlt] at h
        subst h
        rcases List.mem_cons.mp hu with h1 | h1
        · exact h1 ▸ le_rfl
        · exact le_trans (Nat.le_of_not_lt hlt) (ih hm u h1)

theorem mem_eligibleHeads : ∀ {convs : List (String × ConvState)} {t : Task},
    t ∈ eligibleHeads convs →
    ∃ k c, (k, c) ∈ convs ∧ c.active = false ∧ c.queue.head? = some t := by
  intro convs
  induction convs with
  | nil => intro t h; simp [eligibleHeads] at h
  | cons q rest ih =>
    intro t h
    obtain ⟨k, c⟩ := q
    obtain ⟨cq, ca⟩ := c
    cases ca <;> cases cq <;> simp only [eligibleHeads] at h
    · obtain ⟨k', c', h1, h2, h3⟩ := ih h
      exact ⟨k', c', List.mem_cons_of_mem _ h1, h2, h3⟩
    · rcases List.mem_cons.mp h with h1 | h1
      · subst h1
        exact ⟨k, _, List.mem_cons_self _ _, rfl, rfl⟩
      · obtain ⟨k', c', h2, h3, h4⟩ := ih h1
        exact ⟨k', c', List.mem_cons_of_mem _ h2, h3, h4⟩
    · obtain ⟨k', c', h1, h2, h3⟩ := ih h
      exact ⟨k', c', List.mem_cons_of_mem _ h1, h2, h3⟩
    · obtain ⟨k', c', h1, h2, h3⟩ := ih h
      exact ⟨k', c', List.mem_cons_of_mem _ h1, h2, h3⟩

theorem eligibleHeads_eq_nil : ∀ {convs : List (String × ConvState)},
    (∀ p ∈ convs, p.2.queue = [] ∨ p.2.active = true) → eligibleHeads convs = [] := by
  intro convs
  induction convs with
  | nil => intro _; rfl
  | cons q rest ih =>
    intro h
    obtain ⟨k, c⟩ := q
    obtain ⟨cq, ca⟩ := c
    have hrest := ih (fun p hp => h p (List.mem_cons_of_mem _ hp))
    have hhead := h (k, ⟨cq, ca⟩) (List.mem_cons_self _ _)
    cases ca <;> cases cq <;> simp only [eligibleHeads] <;> try exact hrest
    simp at hhead

theorem forall_of_eligibleHeads_nil : ∀ {convs : List (String × ConvState)},
    eligibleHeads convs = [] → ∀ p ∈ convs, p.2.queue = [] ∨ p.2.active = true := by
  intro convs
  induction convs with
  | nil => intro _ p hp; simp at hp
  | cons q rest ih =>
    intro h p hp
    obtain ⟨k, c⟩ := q
    obtain ⟨cq, ca⟩ := c
    cases ca with
    | false =>
      cases cq with
      | nil =>
        simp only [eligibleHeads] at h
        rcases List.mem_cons.mp hp with h1 | h1
        · subst h1; exact Or.inl rfl
        · exact ih h p h1
      | cons a l =>
        simp only [eligibleHeads] at h
        exact absurd h (List.cons_ne_nil _ _)
    | true =>
      cases cq with
      | nil =>
        simp only [eligibleHeads] at h
        rcases List.mem_cons.mp hp with h1 | h1
        · subst h1; exact Or.inr rfl
        · exact ih h p h1
      | cons a l =>
        simp only [eligibleHeads] at h
        rcases List.mem_cons.mp hp with h1 | h1
        · subst h1; exact Or.inr rfl
        · exact ih h p h1

theorem sumQ_setConv (convs : List (String × ConvState)) (id : String) (c : ConvState) :
    sumQ (setConv convs id c) + (getConv convs id).queue.length
      = sumQ convs + c.queue.length := by
  induction convs with
  | nil => simp [setConv, sumQ, getConv]
  | cons q rest ih =>
    obtain ⟨k, v⟩ := q
    by_cases hk : k = id
    · simp [setConv, hk, sumQ, getConv]
      omega
    · simp [setConv, hk, sumQ, getConv] at ih ⊢
      omega

theorem getq_mem : ∀ {l : List Task} {i : Nat} {t : Task}, l.get? i = some t → t ∈ l := by
  intro l
  induction l with
  | nil => intro i t h; simp at h
  | cons a l ih =>
    intro i t h
    cases i with
    | zero => simp at h; simp [h]
    | succ i => exact List.mem_cons_of_mem _ (ih h)

theorem mem_of_mem_eraseIdx : ∀ {l : List Task} {i : Nat} {a : Task},
    a ∈ l.eraseIdx i → a ∈ l := by
  intro l
  induction l with
  | nil => intro i a h; simp [List.eraseIdx] at h
  | cons b l ih =>
    intro i a h
    cases i with
    | zero => exact List.mem_cons_of_mem _ h
    | succ i =>
      rcases List.mem_cons.mp h with h1 | h1
      · simp [h1]
      · exact List.mem_cons_of_mem _ (ih h1)

theorem length_eraseIdx_succ : ∀ {l : List Task} {i : Nat} {t : Task},
    l.get? i = some t → (l.eraseIdx i).length + 1 = l.length := by
  intro l
  induction l with
  | nil => intro i t h; simp at h
  | cons a l ih =>
    intro i t h
    cases i with
    | zero => simp
    | succ i => simp [ih h]

theorem filter_eraseIdx_neg : ∀ {l : List Task} {i : Nat} {t : Task}
    {p : Task → Bool}, l.get? i = some t → p t = false →
    (l.eraseIdx i).filter p = l.filter p := by
  intro l
  induction l with
  | nil => intro i t p h hp; simp at h
  | cons a l ih =>
    intro i t p h hp
    cases i with
    | zero =>
      simp at h
      subst h
      simp [List.filter_cons, hp]
    | succ i =>
      simp only [List.eraseIdx, List.filter_cons]
      rw [ih h hp]

theorem filter_eraseIdx_pos : ∀ {l : List Task} {i : Nat} {t : Task}
    {p : Task → Bool}, l.get? i = some t → p t = true →
    ((l.eraseIdx i).filter p).length + 1 = (l.filter p).length := by
  intro l
  induction l with
  | nil => intro i t p h hp; simp at h
  | cons a l ih =>
    intro i t p h hp
    cases i with
    | zero =>
      simp at h
      subst h
      simp [List.filter_cons, hp]
    | succ i =>
      have hx := ih h hp
      simp only [List.eraseIdx, List.filter_cons]
      cases hpa : p a <;> simp [hpa] <;> omega

/-- The inductive invariant of the scheduler (everything except the
greedy-promotion fixpoint property): distinct conversation keys, queued
tasks filed under their own conversation, the active flag of a
conversation holds iff exactly one of its tasks is executing, the gate
counter equals the number of executing tasks and stays within capacity,
all recorded timestamps are in the past, the started order decomposes
into completed-then-executing, and the per-conversation trace is strictly
increasing in `enqueuedAt`. -/
structure Inv0 (s : LMState) : Prop where
  nodupKeys : (s.convs.map Prod.fst).Nodup
  keysMatch : ∀ p ∈ s.convs, ∀ t ∈ p.2.queue, t.conv = p.1
  runCount : ∀ id, (runningOf s id).length = if (getConv s.convs id).active then 1 else 0
  gateCount : s.gate.inUse = s.running.length
  gateBound : s.gate.inUse ≤ s.gate.capacity
  clockQueue : ∀ p ∈ s.convs, ∀ t ∈ p.2.queue, t.enqueuedAt < s.clock
  clockRun : ∀ t ∈ s.running, t.enqueuedAt < s.clock
  clockFin : ∀ q ∈ s.finished, q.1.enqueuedAt < s.clock
  startedEq : ∀ id, startedOf s id = finishedOf s id ++ runningOf s id
  traceSorted : ∀ id, (convTrace s id).Pairwise (fun a b => a.enqueuedAt < b.enqueuedAt)

/-- The promotion loop has reached its fixpoint: while a global slot is
free, no conversation is idle with a non-empty queue — tasks are blocked
only by the gate or by their own conversation's serialization. -/
def GreedyDone (s : LMState) : Prop :=
  s.gate.inUse < s.gate.capacity → ∀ p ∈ s.convs, p.2.queue = [] ∨ p.2.active = true

/-- The full invariant of reachable scheduler states. -/
structure Inv (s : LMState) extends Inv0 s : Prop where
  greedy : GreedyDone s

theorem promoteOnce_eq_some {s s' : LMState} (h : promoteOnce s = some s') :
    ∃ t, minByEnq (eligibleHeads s.convs) = some t ∧
      s.gate.inUse < s.gate.capacity ∧
      s' = { s with
        gate := ⟨s.gate.capacity, s.gate.inUse + 1⟩,
        convs := setConv s.convs t.conv
          ⟨(getConv s.convs t.conv).queue.tail, true⟩,
        running := s.running ++ [t],
        started := s.started ++ [t] } := by
  unfold promoteOnce at h
  cases hm : minByEnq (eligibleHeads s.convs) with
  | none => rw [hm] at h; simp at h
  | some t =>
    rw [hm] at h
    unfold Gate.tryAdmit at h
    by_cases hlt : s.gate.inUse < s.gate.capacity
    · rw [if_pos hlt] at h
      simp at h
      exact ⟨t, rfl, hlt, h.symm⟩
    · rw [if_neg hlt] at h
      simp at h

theorem promoted_facts {s : LMState} (h0 : Inv0 s) {t : Task}
    (hm : minByEnq (eligibleHeads s.convs) = some t) :
    (t.conv, getConv s.convs t.conv) ∈ s.convs ∧
      (getConv s.convs t.conv).active = false ∧
      (getConv s.convs t.conv).queue = t :: (getConv s.convs t.conv).queue.tail := by
  obtain ⟨k, c, hkc, hact, hhd⟩ := mem_eligibleHeads (minByEnq_mem hm)
  have htq : t ∈ c.queue := by
    cases hcq : c.queue with
    | nil => rw [hcq] at hhd; simp at hhd
    | cons a l =>
      rw [hcq] at hhd
      simp at hhd
      simp [hcq, hhd]
  have hk : t.conv = k := h0.keysMatch _ hkc _ htq
  subst hk
  have hgc : getConv s.convs t.conv = c := getConv_of_mem h0.nodupKeys hkc
  rw [hgc]
  refine ⟨hkc, hact, ?_⟩
  cases hcq : c.queue with
  | nil => rw [hcq] at hhd; simp at hhd
  | cons a l =>
    rw [hcq] at hhd
    simp at hhd
    simp [hhd]

theorem runningOf_eq_nil {s : LMState} (h0 : Inv0 s) {id : String}
    (h : (getConv s.convs id).active = false) : runningOf s id = [] := by
  have hx := h0.runCount id
  rw [h] at hx
  simp only [if_false, Bool.false_eq_true] at hx
  exact List.length_eq_zero.mp hx

theorem convTrace_promoteOnce {s s' : LMState} (h0 : Inv0 s)
    (hp : promoteOnce s = some s') (id : String) :
    convTrace s' id = convTrace s id := by
  obtain ⟨t, hm, hlt, rfl⟩ := promoteOnce_eq_some hp
  obtain ⟨hkc, hact, hq⟩ := promoted_facts h0 hm
  have hrun0 : runningOf s t.conv = [] := runningOf_eq_nil h0 hact
  by_cases hid : id = t.conv
  · subst hid
    show finishedOf s t.conv ++ ((s.running ++ [t]).filter (fun u => u.conv == t.conv))
        ++ (getConv (setConv s.convs t.conv
          ⟨(getConv s.convs t.conv).queue.tail, true⟩) t.conv).queue
        = finishedOf s t.conv ++ runningOf s t.conv ++ (getConv s.convs t.conv).queue
    rw [getConv_setConv_self, List.filter_append]
    rw [show s.running.filter (fun u => u.conv == t.conv) = [] from hrun0]
    rw [show runningOf s t.conv = [] from hrun0]
    conv_rhs => rw [hq]
    simp
  · show finishedOf s id ++ ((s.running ++ [t]).filter (fun u => u.conv == id))
        ++ (getConv (setConv s.convs t.conv
          ⟨(getConv s.convs t.conv).queue.tail, true⟩) id).queue
        = finishedOf s id ++ runningOf s id ++ (getConv s.convs id).queue
    rw [getConv_setConv_ne _ _ hid, List.filter_append]
    have hne : t.conv ≠ id := fun h => hid h.symm
    have hf : [t].filter (fun u => u.conv == id) = [] := by
      simp [hne]
    rw [hf]
    simp [runningOf]

theorem inv0_promoteOnce {s s' : LMState} (h0 : Inv0 s) (h : promoteOnce s = some s') :
    Inv0 s' := by
  have htrace := convTrace_promoteOnce h0 h
  obtain ⟨t, hm, hlt, rfl⟩ := promoteOnce_eq_some h
  obtain ⟨hkc, hact, hq⟩ := promoted_facts h0 hm
  have hrun0 : runningOf s t.conv = [] := runningOf_eq_nil h0 hact
  have htmem : t ∈ (getConv s.convs t.conv).queue := by
    rw [hq]; exact List.mem_cons_self _ _
  constructor
  case nodupKeys => exact nodupKeys_setConv h0.nodupKeys _ _
  case keysMatch =>
    intro p hp t' ht'
    rcases mem_setConv hp with h1 | h1
    · subst h1
      have h2 : t' ∈ (getConv s.convs t.conv).queue := by
        rw [hq]
        exact List.mem_cons_of_mem _ ht'
      exact h0.keysMatch _ hkc _ h2
    · exact h0.keysMatch _ h1 _ ht'
  case runCount =>
    intro id
    by_cases hid : id = t.conv
    · subst hid
      rw [getConv_setConv_self]
      show ((s.running ++ [t]).filter (fun u => u.conv == t.conv)).length = 1
      rw [List.filter_append]
      rw [show s.running.filter (fun u => u.conv == t.conv) = [] from hrun0]
      simp
    · rw [getConv_setConv_ne _ _ hid]
      have hx := h0.runCount id
      show ((s.running ++ [t]).filter (fun u => u.conv == id)).length = _
      rw [List.filter_append]
      have hne : t.conv ≠ id := fun h => hid h.symm
      have hf : [t].filter (fun u => u.conv == id) = [] := by
        simp [hne]
      rw [hf]
      simpa using hx
  case gateCount =>
    show s.gate.inUse + 1 = (s.running ++ [t]).length
    rw [List.length_append, h0.gateCount]
    simp
  case gateBound => exact hlt
  case clockQueue =>
    intro p hp t' ht'
    rcases mem_setConv hp with h1 | h1
    · subst h1
      have h2 : t' ∈ (getConv s.convs t.conv).queue := by
        rw [hq]
        exact List.mem_cons_of_mem _ ht'
      exact h0.clockQueue _ hkc _ h2
    · exact h0.clockQueue _ h1 _ ht'
  case clockRun =>
    intro u hu
    rcases List.mem_append.mp hu with h1 | h1
    · exact h0.clockRun u h1
    · simp at h1
      subst h1
      exact h0.clockQueue _ hkc _ htmem
  case clockFin => exact h0.clockFin
  case startedEq =>
    intro id
    by_cases hid : id = t.conv
    · subst hid
      show (s.started ++ [t]).filter (fun u => u.conv == t.conv)
          = (s.finished.map Prod.fst).filter (fun u => u.conv == t.conv)
            ++ (s.running ++ [t]).filter (fun u => u.conv == t.conv)
      rw [List.filter_append, List.filter_append]
      rw [show s.running.filter (fun u => u.conv == t.conv) = [] from hrun0]
      have h1 := h0.startedEq t.conv
      rw [hrun0, List.append_nil] at h1
      rw [show s.started.filter (fun u => u.conv == t.conv)
          = (s.finished.map Prod.fst).filter (fun u => u.conv == t.conv) from h1]
      simp
    · show (s.started ++ [t]).filter (fun u => u.conv == id)
          = (s.finished.map Prod.fst).filter (fun u => u.conv == id)
            ++ (s.running ++ [t]).filter (fun u => u.conv == id)
      rw [List.filter_append, List.filter_append]
      have hne : t.conv ≠ id := fun h => hid h.symm
      have hf : [t].filter (fun u => u.conv == id) = [] := by
        simp [hne]
      rw [hf]
      have h1 := h0.startedEq id
      simpa using h1
  case traceSorted =>
    intro id
    rw [htrace id]
    exact h0.traceSorted id

theorem totalQueued_promoteOnce {s s' : LMState} (h0 : Inv0 s)
    (h : promoteOnce s = some s') : totalQueued s' + 1 = totalQueued s := by
  obtain ⟨t, hm, hlt, rfl⟩ := promoteOnce_eq_some h
  obtain ⟨hkc, hact, hq⟩ := promoted_facts h0 hm
  show sumQ (setConv s.convs t.conv ⟨(getConv s.convs t.conv).queue.tail, true⟩) + 1
      = sumQ s.convs
  have hs : sumQ (setConv s.convs t.conv ⟨(getConv s.convs t.conv).queue.tail, true⟩)
      + (getConv s.convs t.conv).queue.length
      = sumQ s.convs + (getConv s.convs t.conv).queue.tail.length :=
    sumQ_setConv s.convs t.conv ⟨(getConv s.convs t.conv).queue.tail, true⟩
  have hlen : (getConv s.convs t.conv).queue.length
      = (getConv s.convs t.conv).queue.tail.length + 1 := by
    conv_lhs => rw [hq]
    simp
  omega

theorem promoteOnce_of_empty {s : LMState} (h : totalQueued s = 0) :
    promoteOnce s = none := by
  have he : eligibleHeads s.convs = [] := by
    apply eligibleHeads_eq_nil
    intro p hp
    left
    have h2 : p.2.queue.length = 0 := by
      have h3 : ∀ x ∈ s.convs.map (fun p => p.2.queue.length), x = 0 :=
        List.sum_eq_zero_iff.mp h
      exact h3 _ (List.mem_map_of_mem _ hp)
    exact List.length_eq_zero.mp h2
  unfold promoteOnce
  rw [he]
  rfl

theorem inv0_promoteRec (n : Nat) : ∀ {s : LMState}, Inv0 s → Inv0 (promoteRec n s) := by
  induction n with
  | zero => intro s h0; exact h0
  | succ n ih =>
    intro s h0
    cases hp : promoteOnce s with
    | none => simpa [promoteRec, hp] using h0
    | some s' =>
      have he : promoteRec (n + 1) s = promoteRec n s' := by simp [promoteRec, hp]
      rw [he]
      exact ih (inv0_promoteOnce h0 hp)

theorem promoteRec_fix (n : Nat) : ∀ {s : LMState}, Inv0 s → totalQueued s ≤ n →
    promoteOnce (promoteRec n s) = none := by
  induction n with
  | zero =>
    intro s h0 hn
    exact promoteOnce_of_empty (Nat.le_zero.mp hn)
  | succ n ih =>
    intro s h0 hn
    cases hp : promoteOnce s with
    | none => simpa [promoteRec, hp] using hp
    | some s' =>
      have he : promoteRec (n + 1) s = promoteRec n s' := by simp [promoteRec, hp]
      rw [he]
      have hq := totalQueued_promoteOnce h0 hp
      exact ih (inv0_promoteOnce h0 hp) (by omega)

theorem greedy_of_promoteOnce_none {s : LMState} (h : promoteOnce s = none) :
    GreedyDone s := by
  intro hlt p hp
  unfold promoteOnce at h
  cases hm : minByEnq (eligibleHeads s.convs) with
  | none => exact forall_of_eligibleHeads_nil (minByEnq_eq_none.mp hm) p hp
  | some t =>
    rw [hm] at h
    unfold Gate.tryAdmit at h
    rw [if_pos hlt] at h
    simp at h

theorem inv_promote {s : LMState} (h0 : Inv0 s) : Inv (promote s) :=
  { toInv0 := inv0_promoteRec _ h0,
    greedy := greedy_of_promoteOnce_none (promoteRec_fix _ h0 le_rfl) }

theorem promoteOnce_proj {s s' : LMState} (h : promoteOnce s = some s') :
    s'.finished = s.finished ∧ s'.clock = s.clock ∧ s'.gate.capacity = s.gate.capacity := by
  obtain ⟨t, hm, hlt, rfl⟩ := promoteOnce_eq_some h
  exact ⟨rfl, rfl, rfl⟩

theorem promoteRec_proj (n : Nat) : ∀ {s : LMState},
    (promoteRec n s).finished = s.finished ∧ (promoteRec n s).clock = s.clock ∧
    (promoteRec n s).gate.capacity = s.gate.capacity := by
  induction n with
  | zero => intro s; exact ⟨rfl, rfl, rfl⟩
  | succ n ih =>
    intro s
    cases hp : promoteOnce s with
    | none => simp [promoteRec, hp]
    | some s' =>
      have he : promoteRec (n + 1) s = promoteRec n s' := by simp [promoteRec, hp]
      rw [he]
      obtain ⟨h1, h2, h3⟩ := promoteOnce_proj hp
      obtain ⟨i1, i2, i3⟩ := @ih s'
      exact ⟨i1.trans h1, i2.trans h2, i3.trans h3⟩

theorem promoteRec_running_mono (n : Nat) : ∀ {s : LMState} {u : Task},
    u ∈ s.running → u ∈ (promoteRec n s).running := by
  induction n with
  | zero => intro s u h; exact h
  | succ n ih =>
    intro s u h
    cases hp : promoteOnce s with
    | none => simpa [promoteRec, hp] using h
    | some s' =>
      have he : promoteRec (n + 1) s = promoteRec n s' := by simp [promoteRec, hp]
      rw [he]
      apply ih
      obtain ⟨t, hm, hlt, rfl⟩ := promoteOnce_eq_some hp
      exact List.mem_append_left _ h

theorem inv0_enqueueTask {s : LMState} (h0 : Inv0 s) (id : String) :
    Inv0 (enqueueTask s id) := by
  have hqm : ∀ t ∈ (getConv s.convs id).queue, t.conv = id := by
    intro t ht
    rcases getConv_cases s.convs id with h1 | h1
    · exact h0.keysMatch _ h1 _ ht
    · rw [h1] at ht; simp at ht
  have hqc : ∀ t ∈ (getConv s.convs id).queue, t.enqueuedAt < s.clock := by
    intro t ht
    rcases getConv_cases s.convs id with h1 | h1
    · exact h0.clockQueue _ h1 _ ht
    · rw [h1] at ht; simp at ht
  constructor
  case nodupKeys => exact nodupKeys_setConv h0.nodupKeys _ _
  case keysMatch =>
    intro p hp t ht
    rcases mem_setConv hp with h1 | h1
    · subst h1
      rcases List.mem_append.mp ht with h2 | h2
      · exact hqm _ h2
      · simp at h2; subst h2; rfl
    · exact h0.keysMatch _ h1 _ ht
  case runCount =>
    intro id'
    simp only [enqueueTask]
    by_cases hid : id' = id
    · subst hid
      simp only [getConv_setConv_self]
      exact h0.runCount _
    · simp only [getConv_setConv_ne _ _ hid]
      exact h0.runCount id'
  case gateCount => exact h0.gateCount
  case gateBound => exact h0.gateBound
  case clockQueue =>
    intro p hp t ht
    rcases mem_setConv hp with h1 | h1
    · subst h1
      rcases List.mem_append.mp ht with h2 | h2
      · exact Nat.lt_succ_of_lt (hqc _ h2)
      · simp at h2; subst h2; exact Nat.lt_succ_self _
    · exact Nat.lt_succ_of_lt (h0.clockQueue _ h1 _ ht)
  case clockRun =>
    intro u hu
    exact Nat.lt_succ_of_lt (h0.clockRun u hu)
  case clockFin =>
    intro q hq
    exact Nat.lt_succ_of_lt (h0.clockFin q hq)
  case startedEq => exact h0.startedEq
  case traceSorted =>
    intro id'
    by_cases hid : id' = id
    · subst hid
      have heq : convTrace (enqueueTask s id') id' = convTrace s id' ++ [⟨id', s.clock⟩] := by
        show finishedOf s id' ++ runningOf s id'
            ++ (getConv (setConv s.convs id'
              ⟨(getConv s.convs id').queue ++ [⟨id', s.clock⟩],
                (getConv s.convs id').active⟩) id').queue
            = (finishedOf s id' ++ runningOf s id' ++ (getConv s.convs id').queue)
              ++ [⟨id', s.clock⟩]
        rw [getConv_setConv_self]
        simp [List.append_assoc]
      rw [heq, List.pairwise_append]
      refine ⟨h0.traceSorted id', by simp, ?_⟩
      intro a ha b hb
      simp at hb
      subst hb
      show a.enqueuedAt < s.clock
      rcases List.mem_append.mp ha with h1 | h1
      · rcases List.mem_append.mp h1 with h2 | h2
        · obtain ⟨hmem, _⟩ := List.mem_filter.mp h2
          obtain ⟨q, hq1, hq2⟩ := List.mem_map.mp hmem
          exact hq2 ▸ h0.clockFin q hq1
        · exact h0.clockRun a (List.mem_filter.mp h2).1
      · exact hqc a h1
    · have heq : convTrace (enqueueTask s id) id' = convTrace s id' := by
        show finishedOf s id' ++ runningOf s id'
            ++ (getConv (setConv s.convs id
              ⟨(getConv s.convs id).queue ++ [⟨id, s.clock⟩],
                (getConv s.convs id).active⟩) id').queue
            = finishedOf s id' ++ runningOf s id' ++ (getConv s.convs id').queue
        rw [getConv_setConv_ne _ _ hid]
      rw [heq]
      exact h0.traceSorted id'

theorem inv_submit {s : LMState} (h0 : Inv0 s) (id : String) : Inv (submit s id) :=
  inv_promote (inv0_enqueueTask h0 id)

theorem inv0_finishMid {s : LMState} (h0 : Inv0 s) {i : Nat} {t : Task}
    (hi : s.running.get? i = some t) (r : Outcome) :
    Inv0 { s with
      gate := s.gate.release,
      convs := setConv s.convs t.conv ⟨(getConv s.convs t.conv).queue, false⟩,
      running := s.running.eraseIdx i,
      finished := s.finished ++ [(t, r)] } := by
  have htm : t ∈ s.running := getq_mem hi
  have htf : t ∈ runningOf s t.conv := List.mem_filter.mpr ⟨htm, by simp⟩
  have hact : (getConv s.convs t.conv).active = true := by
    by_contra hc
    have hfa : (getConv s.convs t.conv).active = false := by
      cases hax : (getConv s.convs t.conv).active
      · rfl
      · exact absurd hax hc
    have h2 := runningOf_eq_nil h0 hfa
    rw [h2] at htf
    simp at htf
  have hone : (runningOf s t.conv).length = 1 := by
    have hx := h0.runCount t.conv
    rw [hact] at hx
    simpa using hx
  have hsingle : runningOf s t.conv = [t] := by
    obtain ⟨a, ha⟩ := List.length_eq_one.mp hone
    rw [ha] at htf
    simp at htf
    rw [ha, htf]
  have hz : (s.running.eraseIdx i).filter (fun u => u.conv == t.conv) = [] := by
    have hp1 := filter_eraseIdx_pos hi (p := fun u => u.conv == t.conv) (by simp)
    have h2 : (s.running.filter (fun u => u.conv == t.conv)).length = 1 := hone
    have h3 : ((s.running.eraseIdx i).filter (fun u => u.conv == t.conv)).length = 0 := by
      omega
    exact List.length_eq_zero.mp h3
  have h4 : ([(t, r)].map Prod.fst).filter (fun u => u.conv == t.conv) = [t] := by simp
  have hqm : ∀ u ∈ (getConv s.convs t.conv).queue, u.conv = t.conv := by
    intro u hu
    rcases getConv_cases s.convs t.conv with h1 | h1
    · exact h0.keysMatch _ h1 _ hu
    · rw [h1] at hu; simp at hu
  have hqc : ∀ u ∈ (getConv s.convs t.conv).queue, u.enqueuedAt < s.clock := by
    intro u hu
    rcases getConv_cases s.convs t.conv with h1 | h1
    · exact h0.clockQueue _ h1 _ hu
    · rw [h1] at hu; simp at hu
  constructor
  case nodupKeys => exact nodupKeys_setConv h0.nodupKeys _ _
  case keysMatch =>
    intro p hp u hu
    rcases mem_setConv hp with h1 | h1
    · subst h1; exact hqm _ hu
    · exact h0.keysMatch _ h1 _ hu
  case runCount =>
    intro id
    by_cases hid : id = t.conv
    · subst hid
      rw [getConv_setConv_self]
      show ((s.running.eraseIdx i).filter (fun u => u.conv == t.conv)).length = 0
      rw [hz]
      rfl
    · rw [getConv_setConv_ne _ _ hid]
      have hne : t.conv ≠ id := fun h => hid h.symm
      show ((s.running.eraseIdx i).filter (fun u => u.conv == id)).length = _
      rw [filter_eraseIdx_neg hi (by simp [hne])]
      exact h0.runCount id
  case gateCount =>
    show s.gate.inUse - 1 = (s.running.eraseIdx i).length
    have h1 := length_eraseIdx_succ hi
    have h2 := h0.gateCount
    omega
  case gateBound =>
    show s.gate.inUse - 1 ≤ s.gate.capacity
    have h2 := h0.gateBound
    omega
  case clockQueue =>
    intro p hp u hu
    rcases mem_setConv hp with h1 | h1
    · subst h1; exact hqc _ hu
    · exact h0.clockQueue _ h1 _ hu
  case clockRun =>
    intro u hu
    exact h0.clockRun u (mem_of_mem_eraseIdx hu)
  case clockFin =>
    intro q hq
    rcases List.mem_append.mp hq with h1 | h1
    · exact h0.clockFin q h1
    · simp at h1
      subst h1
      exact h0.clockRun t htm
  case startedEq =>
    intro id
    by_cases hid : id = t.conv
    · subst hid
      show s.started.filter (fun u => u.conv == t.conv)
          = ((s.finished ++ [(t, r)]).map Prod.fst).filter (fun u => u.conv == t.conv)
            ++ (s.running.eraseIdx i).filter (fun u => u.conv == t.conv)
      rw [List.map_append, List.filter_append, hz, h4]
      have h1 := h0.startedEq t.conv
      rw [hsingle] at h1
      rw [show s.started.filter (fun u => u.conv == t.conv)
          = (s.finished.map Prod.fst).filter (fun u => u.conv == t.conv) ++ [t] from h1]
      simp
    · have hne : t.conv ≠ id := fun h => hid h.symm
      show s.started.filter (fun u => u.conv == id)
          = ((s.finished ++ [(t, r)]).map Prod.fst).filter (fun u => u.conv == id)
            ++ (s.running.eraseIdx i).filter (fun u => u.conv == id)
      rw [List.map_append, List.filter_append, filter_eraseIdx_neg hi (by simp [hne])]
      have h5 : ([(t, r)].map Prod.fst).filter (fun u => u.conv == id) = [] := by
        simp [hne]
      rw [h5]
      have h1 := h0.startedEq id
      simpa using h1
  case traceSorted =>
    intro id
    by_cases hid : id = t.conv
    · subst hid
      show ((((s.finished ++ [(t, r)]).map Prod.fst).filter (fun u => u.conv == t.conv))
          ++ (s.running.eraseIdx i).filter (fun u => u.conv == t.conv)
          ++ (getConv (setConv s.convs t.conv
            ⟨(getConv s.convs t.conv).queue, false⟩) t.conv).queue).Pairwise
            (fun a b => a.enqueuedAt < b.enqueuedAt)
      rw [getConv_setConv_self, List.map_append, List.filter_append, hz, h4]
      have hst := h0.traceSorted t.conv
      unfold convTrace finishedOf runningOf at hst
      rw [show s.running.filter (fun u => u.conv == t.conv) = [t] from hsingle] at hst
      simpa [List.append_assoc] using hst
    · have hne : t.conv ≠ id := fun h => hid h.symm
      show ((((s.finished ++ [(t, r)]).map Prod.fst).filter (fun u => u.conv == id))
          ++ (s.running.eraseIdx i).filter (fun u => u.conv == id)
          ++ (getConv (setConv s.convs t.conv
            ⟨(getConv s.convs t.conv).queue, false⟩) id).queue).Pairwise
            (fun a b => a.enqueuedAt < b.enqueuedAt)
      rw [getConv_setConv_ne _ _ hid, List.map_append, List.filter_append,
        filter_eraseIdx_neg hi (by simp [hne])]
      have h5 : ([(t, r)].map Prod.fst).filter (fun u => u.conv == id) = [] := by
        simp [hne]
      rw [h5]
      have hst := h0.traceSorted id
      unfold convTrace finishedOf runningOf at hst
      simpa [List.append_assoc] using hst

theorem inv_step {s : LMState} (hs : Inv s) (e : Event) : Inv (step s e) := by
  cases e with
  | submit id => exact inv_submit hs.toInv0 id
  | finish i r =>
    show Inv (finishAt s i r)
    unfold finishAt
    cases hi : s.running.get? i with
    | none => exact hs
    | some t => exact inv_promote (inv0_finishMid hs.toInv0 hi r)

theorem inv0_init (cap : Nat) : Inv0 (initState cap) := by
  constructor <;>
    simp [initState, runningOf, startedOf, finishedOf, convTrace, getConv]

theorem inv_init (cap : Nat) : Inv (initState cap) :=
  { toInv0 := inv0_init cap,
    greedy := by intro _ p hp; simp [initState] at hp }

theorem inv_run (cap : Nat) (es : List Event) : Inv (run cap es) := by
  suffices h : ∀ (s : LMState), Inv s → Inv (es.foldl step s) from h _ (inv_init cap)
  induction es with
  | nil => intro s hs; exact hs
  | cons e es ih =>
    intro s hs
    exact ih _ (inv_step hs e)

theorem step_capacity (s : LMState) (e : Event) :
    (step s e).gate.capacity = s.gate.capacity := by
  cases e with
  | submit id => exact (promoteRec_proj _).2.2
  | finish i r =>
    show (finishAt s i r).gate.capacity = _
    unfold finishAt
    cases hi : s.running.get? i with
    | none => rfl
    | some t => exact (promoteRec_proj _).2.2

theorem run_capacity (cap : Nat) (es : List Event) : (run cap es).gate.capacity = cap := by
  suffices h : ∀ s : LMState, (es.foldl step s).gate.capacity = s.gate.capacity
    from h (initState cap)
  induction es with
  | nil => intro s; rfl
  | cons e es ih =>
    intro s
    rw [List.foldl_cons, ih, step_capacity]

theorem eligibleHeads_setConv_singleton {convs : List (String × ConvState)}
    (h : ∀ p ∈ convs, p.2.queue = [] ∨ p.2.active = true) (X : String) (u : Task) :
    eligibleHeads (setConv convs X ⟨[u], false⟩) = [u] := by
  induction convs with
  | nil => rfl
  | cons q rest ih =>
    obtain ⟨k, c⟩ := q
    have hrest0 : ∀ p ∈ rest, p.2.queue = [] ∨ p.2.active = true :=
      fun p hp => h p (List.mem_cons_of_mem _ hp)
    by_cases hk : k = X
    · have hrest : eligibleHeads rest = [] := eligibleHeads_eq_nil hrest0
      simp only [setConv, hk, if_pos]
      show eligibleHeads ((X, ⟨[u], false⟩) :: rest) = [u]
      simp only [eligibleHeads]
      rw [hrest]
    · have hc := h (k, c) (List.mem_cons_self _ _)
      have hrest := ih hrest0
      obtain ⟨cq, ca⟩ := c
      simp only [setConv, hk, if_neg hk]
      show eligibleHeads ((k, ⟨cq, ca⟩) :: setConv rest X ⟨[u], false⟩) = [u]
      cases ca with
      | false =>
        rcases hc with hq | ha
        · simp only at hq
          subst hq
          simp only [eligibleHeads]
          exact hrest
        · simp at ha
      | true =>
        cases cq <;> simp only [eligibleHeads] <;> exact hrest

theorem finishAt_finished {s : LMState} {i : Nat} {t : Task}
    (hi : s.running.get? i = some t) (r : Outcome) :
    (finishAt s i r).finished = s.finished ++ [(t, r)] := by
  unfold finishAt
  rw [hi]
  exact (promoteRec_proj _).1

theorem finishAt_clock {s : LMState} {i : Nat} {t : Task}
    (hi : s.running.get? i = some t) (r : Outcome) :
    (finishAt s i r).clock = s.clock := by
  unfold finishAt
  rw [hi]
  exact (promoteRec_proj _).2.1

/-- After a completion has freed a slot, a conversation that is idle is
immediately eligible: a fresh submission under it begins executing at
once (the new task, stamped with the current clock, is running in the
post-`submit` state). -/
theorem submit_runs_immediately {s : LMState} (hs : Inv s) {X : String}
    (hfree : s.gate.inUse < s.gate.capacity)
    (hidle : (getConv s.convs X).active = false) :
    (⟨X, s.clock⟩ : Task) ∈ (submit s X).running := by
  have hqnil : (getConv s.convs X).queue = [] := by
    rcases getConv_cases s.convs X with h1 | h1
    · rcases hs.greedy hfree _ h1 with h2 | h2
      · exact h2
      · rw [hidle] at h2; simp at h2
    · rw [h1]
  have hconv : (enqueueTask s X).convs = setConv s.convs X ⟨[⟨X, s.clock⟩], false⟩ := by
    show setConv s.convs X
        ⟨(getConv s.convs X).queue ++ [⟨X, s.clock⟩], (getConv s.convs X).active⟩ = _
    rw [hqnil, hidle]
    rfl
  have helig : eligibleHeads (enqueueTask s X).convs = [⟨X, s.clock⟩] := by
    rw [hconv]
    exact eligibleHeads_setConv_singleton (hs.greedy hfree) X _
  have hne : promoteOnce (enqueueTask s X) ≠ none := by
    unfold promoteOnce
    rw [helig]
    have hmin : minByEnq [(⟨X, s.clock⟩ : Task)] = some ⟨X, s.clock⟩ := rfl
    rw [hmin]
    unfold Gate.tryAdmit
    have hg : (enqueueTask s X).gate = s.gate := rfl
    rw [hg, if_pos hfree]
    simp
  obtain ⟨s2, hs2⟩ : ∃ s2, promoteOnce (enqueueTask s X) = some s2 := by
    cases hx : promoteOnce (enqueueTask s X) with
    | none => exact absurd hx hne
    | some s2 => exact ⟨s2, rfl⟩
  have hfuel : totalQueued (enqueueTask s X) = totalQueued s + 1 := by
    show sumQ (setConv s.convs X
      ⟨(getConv s.convs X).queue ++ [⟨X, s.clock⟩], (getConv s.convs X).active⟩)
        = sumQ s.convs + 1
    have hsq := sumQ_setConv s.convs X
      ⟨(getConv s.convs X).queue ++ [⟨X, s.clock⟩], (getConv s.convs X).active⟩
    have hlen : (((getConv s.convs X).queue ++ [⟨X, s.clock⟩] : List Task)).length
        = (getConv s.convs X).queue.length + 1 := by simp
    have hsq2 : sumQ (setConv s.convs X
        ⟨(getConv s.convs X).queue ++ [⟨X, s.clock⟩], (getConv s.convs X).active⟩)
          + (getConv s.convs X).queue.length
        = sumQ s.convs + ((getConv s.convs X).queue ++ ([⟨X, s.clock⟩] : List Task)).length :=
      hsq
    omega
  show (⟨X, s.clock⟩ : Task) ∈ (promoteRec (totalQueued (enqueueTask s X))
    (enqueueTask s X)).running
  rw [hfuel]
  have hstep : promoteRec (totalQueued s + 1) (enqueueTask s X)
      = promoteRec (totalQueued s) s2 := by
    simp [promoteRec, hs2]
  rw [hstep]
  apply promoteRec_running_mono
  obtain ⟨t, hm, hlt2, rfl⟩ := promoteOnce_eq_some hs2
  rw [helig] at hm
  have ht : t = ⟨X, s.clock⟩ := by
    have hmin : minByEnq [(⟨X, s.clock⟩ : Task)] = some ⟨X, s.clock⟩ := rfl
    rw [hmin] at hm
    exact (Option.some.inj hm).symm
  subst ht
  exact List.mem_append_right _ (by simp)

/-- C1: in every reachable scheduler state, at most one task per
conversation identifier executes at a time; the `active` flag holds
exactly when one task of that identifier is executing. -/
theorem c1_per_conversation_mutual_exclusion (cap : Nat) (es : List Event) (id : String) :
    countConv (run cap es).running id ≤ 1
      ∧ ((getConv (run cap es).convs id).active = true
          ↔ countConv (run cap es).running id = 1) := by
  have h := (inv_run cap es).runCount id
  have hc : countConv (run cap es).running id = (runningOf (run cap es) id).length := rfl
  rw [hc, h]
  by_cases hb : (getConv (run cap es).convs id).active = true
  · simp [hb]
  · simp [hb]

/-- C2: in every reachable state `0 ≤ inUse ≤ capacity`, `inUse` equals
the number of executing tasks, the capacity is the constructed one, and
the gate primitives behave as specified: `tryAdmit` grants and increments
iff `inUse < capacity`, otherwise leaves the gate unchanged; `release`
decrements and never drives `inUse` below zero. -/
theorem c2_gate_invariant (cap : Nat) (es : List Event) (g : Gate) :
    0 ≤ (run cap es).gate.inUse
      ∧ (run cap es).gate.inUse ≤ (run cap es).gate.capacity
      ∧ (run cap es).gate.capacity = cap
      ∧ (run cap es).gate.inUse = (run cap es).running.length
      ∧ (g.tryAdmit.1 = true ↔ g.inUse < g.capacity)
      ∧ (g.inUse < g.capacity → g.tryAdmit.2.inUse = g.inUse + 1)
      ∧ (¬g.inUse < g.capacity → g.tryAdmit.2 = g)
      ∧ g.release.inUse = g.inUse - 1
      ∧ (g.inUse = 0 → g.release.inUse = 0) := by
  refine ⟨Nat.zero_le _, (inv_run cap es).gateBound, run_capacity cap es,
    (inv_run cap es).gateCount, ?_, ?_, ?_, rfl, ?_⟩
  · unfold Gate.tryAdmit
    by_cases h : g.inUse < g.capacity <;> simp [h]
  · intro h
    simp [Gate.tryAdmit, h]
  · intro h
    simp [Gate.tryAdmit, h]
  · intro h
    show g.inUse - 1 = 0
    omega

/-- C2 witness at a concrete reachable state and gate. -/
theorem c2_gate_invariant_witness :
    (run 2 [Event.submit "A"]).gate.inUse ≤ (run 2 [Event.submit "A"]).gate.capacity
      ∧ (Gate.mk 2 1).tryAdmit.2.inUse = 2 :=
  ⟨(c2_gate_invariant 2 [Event.submit "A"] ⟨2, 1⟩).2.1,
   (c2_gate_invariant 2 [Event.submit "A"] ⟨2, 1⟩).2.2.2.2.2.1 (by decide)⟩

/-- C3: when the `i`-th executing task (of conversation `t.conv`)
completes with any outcome — success or failure — the outcome is recorded
verbatim for its caller, the conversation keeps no stale active flag
(active holds iff one of its tasks is executing), and if afterwards the
gate has room and the conversation is idle, a fresh submission under it
begins executing immediately. -/
theorem c3_failure_releases_slots (cap : Nat) (es : List Event) (i : Nat) (r : Outcome)
    (t : Task) (h : (run cap es).running.get? i = some t) :
    (finishAt (run cap es) i r).finished = (run cap es).finished ++ [(t, r)]
      ∧ ((getConv (finishAt (run cap es) i r).convs t.conv).active = true
          ↔ countConv (finishAt (run cap es) i r).running t.conv = 1)
      ∧ ((finishAt (run cap es) i r).gate.inUse
            < (finishAt (run cap es) i r).gate.capacity →
          (getConv (finishAt (run cap es) i r).convs t.conv).active = false →
          (⟨t.conv, (finishAt (run cap es) i r).clock⟩ : Task)
            ∈ (submit (finishAt (run cap es) i r) t.conv).running) := by
  have hinv : Inv (finishAt (run cap es) i r) :=
    inv_step (inv_run cap es) (Event.finish i r)
  refine ⟨finishAt_finished h r, ?_, ?_⟩
  · have hrc := hinv.runCount t.conv
    show _ ↔ (runningOf (finishAt (run cap es) i r) t.conv).length = 1
    rw [hrc]
    by_cases hb : (getConv (finishAt (run cap es) i r).convs t.conv).active = true
    · simp [hb]
    · simp [hb]
  · intro hfree hidle
    exact submit_runs_immediately hinv hfree hidle

/-- C3 witness: one task of conversation A runs, then fails; the error
value is recorded verbatim. -/
theorem c3_failure_releases_slots_witness :
    (run 1 [Event.submit "A"]).running.get? 0 = some ⟨"A", 0⟩
      ∧ (finishAt (run 1 [Event.submit "A"]) 0 (Outcome.failure "boom")).finished
          = (run 1 [Event.submit "A"]).finished ++ [(⟨"A", 0⟩, Outcome.failure "boom")] :=
  ⟨by decide,
   (c3_failure_releases_slots 1 [Event.submit "A"] 0 (Outcome.failure "boom")
     ⟨"A", 0⟩ (by decide)).1⟩

/-- C4: for a fixed conversation, tasks begin executing in strictly
increasing submission (`enqueuedAt`) order and complete in strictly
increasing submission order; and whenever a slot is free, no conversation
is blocked except by its own serialization (queue empty or already
active) — the gate is the only cross-conversation constraint. -/
theorem c4_fifo_per_conversation (cap : Nat) (es : List Event) (id : String) :
    (startedOf (run cap es) id).Pairwise (fun a b => a.enqueuedAt < b.enqueuedAt)
      ∧ (finishedOf (run cap es) id).Pairwise (fun a b => a.enqueuedAt < b.enqueuedAt)
      ∧ ((run cap es).gate.inUse < (run cap es).gate.capacity →
          ∀ p ∈ (run cap es).convs, p.2.queue = [] ∨ p.2.active = true) := by
  have hinv := inv_run cap es
  have htr := hinv.traceSorted id
  refine ⟨?_, ?_, hinv.greedy⟩
  · rw [hinv.startedEq id]
    have hsub : (finishedOf (run cap es) id ++ runningOf (run cap es) id).Sublist
        (convTrace (run cap es) id) := List.sublist_append_left _ _
    exact List.Pairwise.sublist hsub htr
  · have hsub : (finishedOf (run cap es) id).Sublist (convTrace (run cap es) id) := by
      unfold convTrace
      rw [List.append_assoc]
      exact List.sublist_append_left _ _
    exact List.Pairwise.sublist hsub htr

/-- C4 witness: at capacity 2 with one task running, a free slot remains
and no conversation is blocked. -/
theorem c4_fifo_per_conversation_witness :
    (run 2 [Event.submit "A"]).gate.inUse < (run 2 [Event.submit "A"]).gate.capacity
      ∧ (∀ p ∈ (run 2 [Event.submit "A"]).convs, p.2.queue = [] ∨ p.2.active = true) :=
  ⟨by decide, (c4_fifo_per_conversation 2 [Event.submit "A"] "A").2.2 (by decide)⟩

/-- C5 counterexample: with capacity 1, conversation B's single task is
submitted during conversation A's first task (A's first task, enqueued at
time 0, is still running when B submits) — yet after that task completes,
A's second task (enqueued at time 1, older than B's at time 2) is
promoted and B's task stays queued.  So a task of B submitted during A's
first task does not, in general, run immediately after that task
completes. -/
theorem c5_counterexample :
    (run 1 [Event.submit "A", Event.submit "A", Event.submit "B"]).running
        = [⟨"A", 0⟩]
      ∧ (run 1 [Event.submit "A", Event.submit "A", Event.submit "B",
          Event.finish 0 Outcome.success]).running = [⟨"A", 1⟩]
      ∧ (getConv (run 1 [Event.submit "A", Event.submit "A", Event.submit "B",
          Event.finish 0 Outcome.success]).convs "B").queue = [⟨"B", 2⟩] := by
  refine ⟨by decide, by decide, by decide⟩

/-- C5 (amended): every promotion step starts the eligible head task with
the earliest `enqueuedAt` (oldest-first across all waiting
conversations); consequently, with capacity 1, a single task of B
submitted during A's first task and before A's further submissions runs
immediately after A's first task completes, before A's remaining queued
tasks. -/
theorem c5_oldest_first_promotion :
    (∀ s s' : LMState, promoteOnce s = some s' →
        ∃ t, s'.started = s.started ++ [t]
          ∧ t ∈ eligibleHeads s.convs
          ∧ ∀ u ∈ eligibleHeads s.convs, t.enqueuedAt ≤ u.enqueuedAt)
      ∧ (run 1 [Event.submit "A", Event.submit "B", Event.submit "A", Event.submit "A",
          Event.finish 0 Outcome.success]).running = [⟨"B", 1⟩]
      ∧ (getConv (run 1 [Event.submit "A", Event.submit "B", Event.submit "A",
          Event.submit "A", Event.finish 0 Outcome.success]).convs "A").queue
          = [⟨"A", 2⟩, ⟨"A", 3⟩] := by
  refine ⟨?_, by decide, by decide⟩
  intro s s' hp
  obtain ⟨t, hm, hlt, rfl⟩ := promoteOnce_eq_some hp
  exact ⟨t, rfl, minByEnq_mem hm, minByEnq_le hm⟩

/-- C5 witness: a concrete promotion step selecting the oldest eligible
head. -/
theorem c5_oldest_first_promotion_witness :
    ∃ t, (⟨⟨1, 1⟩, [("A", ⟨[], true⟩)], [⟨"A", 0⟩], [⟨"A", 0⟩], [], 1⟩ : LMState).started
        = (enqueueTask (initState 1) "A").started ++ [t]
      ∧ t ∈ eligibleHeads (enqueueTask (initState 1) "A").convs
      ∧ ∀ u ∈ eligibleHeads (enqueueTask (initState 1) "A").convs,
          t.enqueuedAt ≤ u.enqueuedAt :=
  c5_oldest_first_promotion.1 _ _ (by decide)

/-- C6: the startup capacity defaults to 10 when the configuration
variable is unset, and the modelled constructor fails with a
`ConfigurationError` exactly when the parsed capacity is non-positive,
otherwise yielding the fresh scheduler of that capacity. -/
theorem c6_capacity_configuration (env : Option String) (c : Int) :
    startupLockManager none = some (Except.ok (initState 10))
      ∧ (jsParseInt (envMaxConcurrentString env) = some c → c ≤ 0 →
          startupLockManager env
            = some (Except.error ConfigurationError.nonPositiveCapacity))
      ∧ (jsParseInt (envMaxConcurrentString env) = some c → 0 < c →
          startupLockManager env = some (Except.ok (initState c.toNat))) := by
  refine ⟨rfl, ?_, ?_⟩
  · intro h1 h2
    unfold startupLockManager
    rw [h1]
    simp [mkConversationLockManager, h2]
  · intro h1 h2
    unfold startupLockManager
    rw [h1]
    simp [mkConversationLockManager, Int.not_le.mpr h2]

/-- C6 witness: configured "0" is fatal; configured "3" builds capacity
3. -/
theorem c6_capacity_configuration_witness :
    (jsParseInt (envMaxConcurrentString (some "0")) = some 0
      ∧ startupLockManager (some "0")
          = some (Except.error ConfigurationError.nonPositiveCapacity))
      ∧ (jsParseInt (envMaxConcurrentString (some "3")) = some 3
      ∧ startupLockManager (some "3") = some (Except.ok (initState 3))) :=
  ⟨⟨by decide,
    (c6_capacity_configuration (some "0") 0).2.1 (by decide) (by decide)⟩,
   ⟨by decide,
    (c6_capacity_configuration (some "3") 3).2.2 (by decide) (by decide)⟩⟩

/-- C7: `getStats` returns the documented snapshot and leaves the state
unchanged; on reachable states the snapshot also satisfies
`currentActive ≤ maxConcurrent`. -/
theorem c7_getStats_pure (cap : Nat) (es : List Event) (s : LMState) :
    (getStats s).2 = s
      ∧ (getStats (run cap es)).1.maxConcurrent = (run cap es).gate.capacity
      ∧ (getStats (run cap es)).1.currentActive = (run cap es).gate.inUse
      ∧ (getStats (run cap es)).1.queuedTotal = totalQueued (run cap es)
      ∧ (getStats (run cap es)).1.perConversationQueueDepths
          = (run cap es).convs.map (fun p => (p.1, p.2.queue.length))
      ∧ (getStats (run cap es)).1.currentActive ≤ (getStats (run cap es)).1.maxConcurrent :=
  ⟨rfl, rfl, rfl, rfl, rfl, (inv_run cap es).gateBound⟩

/-- C8: the Slack whitelist denies everyone when empty, allows everyone
when it contains the wildcard, and otherwise allows exactly the listed
user ids. -/
theorem c8_slack_whitelist (users : List String) (uid : String) :
    (users = [] → isUserAllowed users uid = false)
      ∧ ("*" ∈ users → isUserAllowed users uid = true)
      ∧ ("*" ∉ users → (isUserAllowed users uid = true ↔ uid ∈ users)) := by
  refine ⟨?_, ?_, ?_⟩
  · intro h
    subst h
    rfl
  · intro h
    have hne : users.length ≠ 0 := by
      intro h2
      rw [List.length_eq_zero.mp h2] at h
      simp at h
    unfold isUserAllowed
    rw [if_neg hne, List.any_eq_true]
    exact ⟨"*", h, by simp⟩
  · intro h
    unfold isUserAllowed
    by_cases hl : users.length = 0
    · rw [if_pos hl, List.length_eq_zero.mp hl]
      simp
    · rw [if_neg hl, List.any_eq_true]
      constructor
      · rintro ⟨x, hx, hx2⟩
        simp at hx2
        rcases hx2 with h2 | h2
        · exact absurd (h2 ▸ hx) h
        · exact h2 ▸ hx
      · intro hm
        exact ⟨uid, hm, by simp⟩

/-- C8 witness: a wildcard-free whitelist admits exactly its members. -/
theorem c8_slack_whitelist_witness :
    "*" ∉ ["U123456", "U789012"]
      ∧ (isUserAllowed ["U123456", "U789012"] "U123456" = true
          ↔ "U123456" ∈ ["U123456", "U789012"]) :=
  ⟨by decide, (c8_slack_whitelist ["U123456", "U789012"] "U123456").2.2 (by decide)⟩

/-- C9: the Telegram check allows everyone when the whitelist is empty
(public by default) and otherwise admits exactly the decimal strings in
the whitelist — the opposite empty-list default from the Slack adapter,
which denies everyone. -/
theorem c9_telegram_default_open (ids : List String) (uid : Int) (u : String) :
    isUserAuthorized [] uid = true
      ∧ (ids ≠ [] → (isUserAuthorized ids uid = true ↔ toString uid ∈ ids))
      ∧ isUserAllowed [] u = false := by
  refine ⟨rfl, ?_, rfl⟩
  intro h
  unfold isUserAuthorized
  rw [if_neg (fun h2 => h (List.length_eq_zero.mp h2))]
  simp

/-- C9 witness: a one-element whitelist admits exactly that user id. -/
theorem c9_telegram_default_open_witness :
    (["42"] : List String) ≠ []
      ∧ (isUserAuthorized ["42"] 42 = true ↔ toString (42 : Int) ∈ ["42"]) :=
  ⟨by decide, (c9_telegram_default_open ["42"] 42 "u").2.1 (by decide)⟩

/-- C10: a message within the platform limit (4096 for Telegram, 40000
for Slack) is returned by `splitMessage` as the single unchanged chunk,
so `sendMessage` emits exactly one chunk. -/
theorem c10_short_message_single_chunk (m : String) :
    (m.length ≤ 4096 →
        telegramSplitMessage m = [m] ∧ (telegramSplitMessage m).length = 1)
      ∧ (m.length ≤ 40000 →
        slackSplitMessage m = [m] ∧ (slackSplitMessage m).length = 1) := by
  constructor
  · intro h
    have he : telegramSplitMessage m = [m] := by
      unfold telegramSplitMessage splitMessage
      rw [if_pos h]
    exact ⟨he, by rw [he]; rfl⟩
  · intro h
    have he : slackSplitMessage m = [m] := by
      unfold slackSplitMessage splitMessage
      rw [if_pos h]
    exact ⟨he, by rw [he]; rfl⟩

/-- C10 witness at a concrete short message. -/
theorem c10_short_message_single_chunk_witness :
    ("hello".length ≤ 4096 ∧ telegramSplitMessage "hello" = ["hello"])
      ∧ ("hello".length ≤ 40000 ∧ slackSplitMessage "hello" = ["hello"]) :=
  ⟨⟨by decide, ((c10_short_message_single_chunk "hello").1 (by decide)).1⟩,
   ⟨by decide, ((c10_short_message_single_chunk "hello").2 (by decide)).1⟩⟩


end RACS
